import Mathlib

/-!
# Verification of the async-registry core (per-thread promise registry)

Shallow embedding of `src/lib/Async/Registry/thread_registry.h` (struct
`ThreadRegistry`) and of the promise record / registration handle declared in
`promise.h` (`struct Promise`, `struct AddToAsyncRegistry`).

Modelling conventions:
* Pointers are optional addresses (`Option Nat`); `none` is `nullptr`.
* The memory holding promise records is an explicit heap
  `Nat → Option Promise`; each C++ field write becomes a pointwise heap update.
* The code is single-registry sequential: atomics reduce to plain reads and
  writes, a successful `compare_exchange` is one read-modify-write.
* `ADB_PROD_ASSERT` (fatal assertion, process abort) is modelled by returning
  `none` from the operation; `some` means the assertion passed.
* Two ghost fields instrument `ThreadRegistry` for specification purposes only:
  `allocs` (total number of `add` calls, an upper bound for list lengths that
  serves as structural fuel for the list walks) and `destroyed` (the ids handed
  to `destroy()`, in order, so that double frees are observable).  Neither is
  read by any modelled operation's branching logic.
-/

set_option maxHeartbeats 1000000

namespace AsyncRegistry

/-- Promise lifecycle states (`enum class State` in promise.h). -/
inductive State where
  | Running
  | Suspended
  | Resolved
  | Deleted
deriving DecidableEq

/-- Waiter variant (`std::variant<NoWaiter, AsyncWaiter, SyncWaiter>` in
promise.h); `AsyncWaiter = void*` and `SyncWaiter = std::thread::id` are both
modelled as `Nat`. -/
inductive Waiter where
  | NoWaiter
  | Async (item : Nat)
  | Sync (item : Nat)
deriving DecidableEq

/-- `struct Thread` in promise.h: a thread name and platform id. -/
structure Thread where
  name : String
  id : Nat
deriving DecidableEq

/-- `struct SourceLocation` in promise.h: immutable file/function plus the
mutable (atomic) current line. -/
structure SourceLocation where
  file_name : String
  function_name : String
  line : Nat
deriving DecidableEq

/-- `struct Promise` in promise.h.  `registry` holds the id of the owning
`ThreadRegistry` (the `shared_ptr<ThreadRegistry>` field); `next`, `previous`
and `next_to_free` are the intrusive list pointers. -/
structure Promise where
  thread : Thread
  source_location : SourceLocation
  waiter : Waiter
  state : State
  registry : Option Nat
  next : Option Nat
  previous : Option Nat
  next_to_free : Option Nat
deriving DecidableEq

/-- `struct PromiseSnapshot` in promise.h. -/
structure PromiseSnapshot where
  id : Option Nat
  thread : Thread
  source_location : SourceLocation
  waiter : Waiter
  state : State
deriving DecidableEq

/-- `Promise::snapshot()`: reads the atomic cells by value.  `addr` is the
record's own address (`id()` returns `this`). -/
def Promise.snapshot (p : Promise) (addr : Nat) : PromiseSnapshot :=
  { id := some addr, thread := p.thread, source_location := p.source_location,
    waiter := p.waiter, state := p.state }

/-- A freshly constructed promise record: the field initializers of
`struct Promise` (`waiter = NoWaiter`, `state = Running`, all list pointers
null) together with the thread/source-location data captured at construction. -/
def PromiseInit (th : Thread) (loc : SourceLocation) : Promise :=
  { thread := th, source_location := loc, waiter := .NoWaiter, state := .Running,
    registry := none, next := none, previous := none, next_to_free := none }

/-- The memory holding promise records, addressed by `Nat`. -/
abbrev Heap := Nat → Option Promise

/-- Update the record at address `i` (no-op on a dangling address). -/
def hmodify (h : Heap) (i : Nat) (f : Promise → Promise) : Heap :=
  fun k => if k = i then (h k).map f else h k

/-- Place a record at address `i`. -/
def hinsert (h : Heap) (i : Nat) (p : Promise) : Heap :=
  fun k => if k = i then some p else h k

/-- Free the record at address `i`. -/
def hdelete (h : Heap) (i : Nat) : Heap :=
  fun k => if k = i then none else h k

/-- `promise->next = v`. -/
def setNext (h : Heap) (i : Nat) (v : Option Nat) : Heap :=
  hmodify h i fun p => { p with next := v }

/-- `promise->previous = v`. -/
def setPrevious (h : Heap) (i : Nat) (v : Option Nat) : Heap :=
  hmodify h i fun p => { p with previous := v }

/-- `promise->next_to_free = v`. -/
def setNextToFree (h : Heap) (i : Nat) (v : Option Nat) : Heap :=
  hmodify h i fun p => { p with next_to_free := v }

/-- `struct ThreadRegistry` (thread_registry.h, lines 112-117) plus the two
ghost fields described in the file header.  `regId` is the registry's own
address, used for the `promise->registry == this` assertion. -/
structure ThreadRegistry where
  regId : Nat
  owning_thread : Nat
  heap : Heap
  free_head : Option Nat
  promise_head : Option Nat
  ref_count : Nat
  allocs : Nat
  destroyed : List Nat

namespace ThreadRegistry

/-- `ThreadRegistry::make()` (line 26): `new ThreadRegistry{}` with the field
initializers `free_head = nullptr`, `promise_head = nullptr`, `ref_count = 0`
and `owning_thread = std::this_thread::get_id()` (the creating thread). -/
def make (creator : Nat) (rid : Nat) : ThreadRegistry :=
  { regId := rid, owning_thread := creator, heap := fun _ => none,
    free_head := none, promise_head := none, ref_count := 0,
    allocs := 0, destroyed := [] }

/-- `ThreadRegistry::increment_ref_count()` (line 35). -/
def increment_ref_count (R : ThreadRegistry) : ThreadRegistry :=
  { R with ref_count := R.ref_count + 1 }

/-- `ThreadRegistry::remove(promise)` (lines 128-140), as a pure function on
the heap and the live-list head: read `promise->next` and `promise->previous`;
if `previous` is null store `next` into `promise_head`, else `previous->next =
next`; if `next` is non-null, `next->previous = previous`.  (The C++ contract
requires the promise to be in the registry; a dangling address leaves the
state unchanged, which the assertion-checked callers never exercise.) -/
def removeAux (h : Heap) (hd : Option Nat) (b : Nat) : Heap × Option Nat :=
  match h b with
  | none => (h, hd)
  | some p =>
    let step1 : Heap × Option Nat :=
      match p.previous with
      | none => (h, p.next)
      | some pr => (setNext h pr p.next, hd)
    match p.next with
    | none => step1
    | some nx => (setPrevious step1.1 nx p.previous, step1.2)

/-- `ThreadRegistry::remove` lifted to the registry state. -/
def remove (R : ThreadRegistry) (b : Nat) : ThreadRegistry :=
  { R with heap := (removeAux R.heap R.promise_head b).1,
           promise_head := (removeAux R.heap R.promise_head b).2 }

/-- `PromiseInList::destroy()`: deallocate the record.  The ghost `destroyed`
trace records the call. -/
def destroy (R : ThreadRegistry) (b : Nat) : ThreadRegistry :=
  { R with heap := hdelete R.heap b, destroyed := R.destroyed ++ [b] }

/-- The loop of `ThreadRegistry::garbage_collect()` (lines 105-109): walk the
private free chain, for each record `remove` it from the live list and then
`destroy` it.  The C++ loop step reads `current->next_to_free`, which neither
`remove` nor `destroy` writes, so reading it before the two calls is
equivalent; `fuel` bounds the walk (instantiated with the ghost `allocs`,
which under the registry invariant exceeds every chain length). -/
def gcLoop : Nat → ThreadRegistry → Option Nat → ThreadRegistry
  | 0, R, _ => R
  | _ + 1, R, none => R
  | fuel + 1, R, some i =>
    let nxt := match R.heap i with
      | some p => p.next_to_free
      | none => none
    gcLoop fuel ((R.remove i).destroy i) nxt

/-- Body of `ThreadRegistry::garbage_collect()` after its assertion (lines
102-109): exchange `free_head` with null, then run the collection loop on the
privately captured chain. -/
def garbage_collect_run (R : ThreadRegistry) : ThreadRegistry :=
  gcLoop R.allocs { R with free_head := none } R.free_head

/-- `ThreadRegistry::garbage_collect()` (lines 99-110) including its
`ADB_PROD_ASSERT(ref_count == 0 || this_thread == owning_thread)`. -/
def garbage_collect (R : ThreadRegistry) (caller : Nat) : Option ThreadRegistry :=
  if R.ref_count = 0 ∨ caller = R.owning_thread then some R.garbage_collect_run
  else none

/-- `ThreadRegistry::decrement_ref_count()` (lines 28-34): `fetch_sub(1)`; when
the old value was 1 the registry runs `garbage_collect()` (whose assertion
holds because `ref_count` is now 0) and then `delete this`.  The boolean
reports whether the registry deallocated itself; when it is `true` the
returned state is the final (ghost) state just before deallocation. -/
def decrement_ref_count (R : ThreadRegistry) : ThreadRegistry × Bool :=
  let old := R.ref_count
  let R1 : ThreadRegistry := { R with ref_count := R.ref_count - 1 }
  if old = 1 then (R1.garbage_collect_run, true) else (R1, false)

/-- `ThreadRegistry::add(promise)` (lines 43-55): assert the caller is the
owning thread; read `promise_head`; set `promise->next` to it and
`promise->registry = this`; if the old head exists, set its `previous` to the
new record; publish the new head; increment the refcount.  `i` is the address
of the freshly allocated record `p`. -/
def add (R : ThreadRegistry) (caller : Nat) (i : Nat) (p : Promise) :
    Option ThreadRegistry :=
  if caller = R.owning_thread then
    let current_head := R.promise_head
    let p1 : Promise := { p with next := current_head, registry := some R.regId }
    let h1 : Heap := hinsert R.heap i p1
    let h2 : Heap := match current_head with
      | some hd => setPrevious h1 hd (some i)
      | none => h1
    some (increment_ref_count
      { R with heap := h2, promise_head := some i, allocs := R.allocs + 1 })
  else none

/-- `ThreadRegistry::mark_for_deletion(promise)` (lines 80-91): assert
`promise->registry == this`; link the record onto `free_head` via the CAS loop
on `next_to_free` (one successful iteration in the sequential model); then
`decrement_ref_count()`. -/
def mark_for_deletion (R : ThreadRegistry) (i : Nat) :
    Option (ThreadRegistry × Bool) :=
  match R.heap i with
  | none => none
  | some p =>
    if p.registry = some R.regId then
      some (decrement_ref_count
        { R with heap := setNextToFree R.heap i R.free_head,
                 free_head := some i })
    else none

/-- The walk of the live list through `next`, visited addresses in order. -/
def walkNext (h : Heap) : Nat → Option Nat → List Nat
  | 0, _ => []
  | _ + 1, none => []
  | fuel + 1, some i =>
    i :: walkNext h fuel (match h i with
      | some p => p.next
      | none => none)

/-- `ThreadRegistry::for_promise(f)` (lines 63-72): under the mutex, load
`promise_head` and walk `next` to the end, invoking the callback on each
record.  The model returns the list of visited record addresses (the callback
is invoked exactly once per returned element, in order). -/
def for_promise (R : ThreadRegistry) : List Nat :=
  walkNext R.heap R.allocs R.promise_head

end ThreadRegistry

/-- `struct AddToAsyncRegistry` (promise.h, lines 191-235): the registration
handle.  `promise_in_registry` is the (noop-deleter) `unique_ptr<Promise>`,
i.e. a raw optional record address; `none` is the default-constructed, never
attached handle. -/
structure AddToAsyncRegistry where
  promise_in_registry : Option Nat

namespace AddToAsyncRegistry

/-- `AddToAsyncRegistry::id()` (lines 210-216): the record's address
(`Promise::id()` returns `this`), or `nullptr` for an empty handle. -/
def id (hd : AddToAsyncRegistry) : Option Nat :=
  match hd.promise_in_registry with
  | some i => some i
  | none => none

/-- `AddToAsyncRegistry::update_state(state)` (lines 222-226): if attached,
store the given state into the record; otherwise do nothing. -/
def update_state (hd : AddToAsyncRegistry) (R : ThreadRegistry) (s : State) :
    ThreadRegistry :=
  match hd.promise_in_registry with
  | some i => { R with heap := hmodify R.heap i fun p => { p with state := s } }
  | none => R

/-- `AddToAsyncRegistry::update_source_location(loc)` (lines 217-221): if
attached, store `loc.line()` into the record's `source_location.line`;
file/function are not touched. -/
def update_source_location (hd : AddToAsyncRegistry) (R : ThreadRegistry)
    (loc : SourceLocation) : ThreadRegistry :=
  match hd.promise_in_registry with
  | some i =>
    { R with heap := hmodify R.heap i fun p =>
        { p with source_location := { p.source_location with line := loc.line } } }
  | none => R

/-- `AddToAsyncRegistry::set_promise_waiter(AsyncWaiter)` (lines 200-204). -/
def set_promise_waiter_async (hd : AddToAsyncRegistry) (R : ThreadRegistry)
    (w : Nat) : ThreadRegistry :=
  match hd.promise_in_registry with
  | some i => { R with heap := hmodify R.heap i fun p => { p with waiter := .Async w } }
  | none => R

/-- `AddToAsyncRegistry::set_promise_waiter(SyncWaiter)` (lines 205-209). -/
def set_promise_waiter_sync (hd : AddToAsyncRegistry) (R : ThreadRegistry)
    (w : Nat) : ThreadRegistry :=
  match hd.promise_in_registry with
  | some i => { R with heap := hmodify R.heap i fun p => { p with waiter := .Sync w } }
  | none => R

/-- Modelled from the spec: the destructor body `~AddToAsyncRegistry()` lives
in promise.cpp, which is not among the sources here.  Per the spec ("On
destruction the handle calls `mark_for_deletion` on the record's registry.  If
the handle was never attached .. destruction is a no-op"): an attached handle
invokes `ThreadRegistry::mark_for_deletion` on its record, an empty handle
does nothing. -/
def destruct (hd : AddToAsyncRegistry) (R : ThreadRegistry) :
    Option (ThreadRegistry × Bool) :=
  match hd.promise_in_registry with
  | some i => R.mark_for_deletion i
  | none => some (R, false)

end AddToAsyncRegistry

/-! ## Concrete scenario states -/

/-- A sample record payload for the concrete scenarios. -/
def p0 : Promise := PromiseInit ⟨"T", 1⟩ ⟨"file.cpp", "coro_fn", 1⟩

/-- Registry after `add(A) ; add(B) ; add(C)` on the owner thread (records at
addresses 10, 20, 30). -/
def lifecycleAdds : Option ThreadRegistry :=
  (((ThreadRegistry.make 1 0).add 1 10 p0).bind fun R => R.add 1 20 p0).bind
    fun R => R.add 1 30 p0

/-- ... then `mark_for_deletion(B)` (from any thread). -/
def lifecycleMarked : Option ThreadRegistry :=
  lifecycleAdds.bind fun R => (R.mark_for_deletion 20).map Prod.fst

/-- ... then `garbage_collect()` on the owner thread. -/
def lifecycleCollected : Option ThreadRegistry :=
  lifecycleMarked.bind fun R => R.garbage_collect 1

/-- Registry holding one attached record at address 10 (owner thread 1,
registry id 0, plus the directory's reference). -/
def cexMarkBase : ThreadRegistry :=
  (((ThreadRegistry.make 1 0).increment_ref_count).add 1 10 p0).getD
    (ThreadRegistry.make 1 0)

/-- Registry `cexMarkBase` after `update_state(Resolved)` through the attached
handle for record 10. -/
def cexResolved : ThreadRegistry :=
  (AddToAsyncRegistry.mk (some 10)).update_state cexMarkBase State.Resolved

/-- `cexMarkBase` after a second owner-thread `add` (record at address 20). -/
def gcW2 : ThreadRegistry := (cexMarkBase.add 1 20 p0).getD cexMarkBase

/-- `gcW2` after `mark_for_deletion` of record 10. -/
def gcW3 : ThreadRegistry :=
  ((gcW2.mark_for_deletion 10).map Prod.fst).getD gcW2

/-! ## List-structure invariants

The registry's live list is a doubly-linked intrusive list through
`next`/`previous`; the free list is singly linked through `next_to_free`.
In the sequential model reachable by owner-thread operation sequences the
back pointers are exact, which the following representation predicates
capture. -/

/-- The live list: starting at `cur`, following `next` visits exactly the
addresses in `L` and terminates, and each record's `previous` names its
predecessor (`prev` for the front record). -/
inductive DLL (h : Heap) : Option Nat → Option Nat → List Nat → Prop where
  | nil {prev : Option Nat} : DLL h prev none []
  | cons {prev : Option Nat} {i : Nat} {p : Promise} {L : List Nat}
      (hp : h i = some p) (hprev : p.previous = prev)
      (tail : DLL h (some i) p.next L) : DLL h prev (some i) (i :: L)

/-- The free chain: starting at `cur`, following `next_to_free` visits exactly
the addresses in `F` and terminates. -/
inductive FChain (h : Heap) : Option Nat → List Nat → Prop where
  | nil : FChain h none []
  | cons {i : Nat} {p : Promise} {F : List Nat} (hp : h i = some p)
      (tail : FChain h p.next_to_free F) : FChain h (some i) (i :: F)

/-- The heap transformation of `ThreadRegistry::remove` for a record `pb`
that is not the live head (its `previous` is some `pr`): `pr->next = pb.next`,
and if `pb.next` is non-null, `pb.next->previous = pb.previous`. -/
def removeMidHeap (h : Heap) (pr : Nat) (pb : Promise) : Heap :=
  match pb.next with
  | none => setNext h pr pb.next
  | some nx => setPrevious (setNext h pr pb.next) nx pb.previous

/-- The list pointers of the record at `k` (`none` if the cell is free):
shape-relevant projection for live-list reasoning. -/
def nextPrevProj (h : Heap) (k : Nat) : Option (Option Nat × Option Nat) :=
  (h k).map fun p => (p.next, p.previous)

/-- The free-chain pointer of the record at `k` (`none` if the cell is
free). -/
def ntfProj (h : Heap) (k : Nat) : Option (Option Nat) :=
  (h k).map fun p => p.next_to_free

/-- Registry invariant tying a registry state to its abstract live list `L`
(head first) and free chain `F` (most recently marked first). -/
structure Wf (R : ThreadRegistry) (L F : List Nat) : Prop where
  dll : DLL R.heap none R.promise_head L
  nodupL : L.Nodup
  fchain : FChain R.heap R.free_head F
  nodupF : F.Nodup
  subFL : ∀ i ∈ F, i ∈ L
  lenL : L.length ≤ R.allocs
  heapDom : ∀ k q, R.heap k = some q → k ∈ L

/-- Registry states reachable from `make` by owner-thread `add`s, directory
`increment_ref_count`s and completed `mark_for_deletion`s (each record marked
at most once, and no mark dropping the last reference), indexed by the
abstract live list `L` and free chain `F`. -/
inductive Reachable : ThreadRegistry → List Nat → List Nat → Prop where
  | make (t rid : Nat) : Reachable (ThreadRegistry.make t rid) [] []
  | incr {R : ThreadRegistry} {L F : List Nat} (h : Reachable R L F) :
      Reachable R.increment_ref_count L F
  | add {R : ThreadRegistry} {L F : List Nat} {i : Nat} {th : Thread}
      {loc : SourceLocation} {R2 : ThreadRegistry}
      (h : Reachable R L F) (hfresh : R.heap i = none)
      (hstep : R.add R.owning_thread i (PromiseInit th loc) = some R2) :
      Reachable R2 (i :: L) F
  | mark {R : ThreadRegistry} {L F : List Nat} {i : Nat} {R2 : ThreadRegistry}
      (h : Reachable R L F) (hnotF : i ∉ F)
      (hstep : R.mark_for_deletion i = some (R2, false)) :
      Reachable R2 L (i :: F)

/-! ## Helper lemmas -/

theorem hmodify_at (h : Heap) (i : Nat) (f : Promise → Promise) :
    hmodify h i f i = (h i).map f := by
  simp [hmodify]

theorem hmodify_ne (h : Heap) (i : Nat) (f : Promise → Promise) {k : Nat}
    (hk : k ≠ i) : hmodify h i f k = h k := by
  simp [hmodify, hk]

theorem hmodify_none (h : Heap) (i : Nat) (f : Promise → Promise) (k : Nat)
    (hk : h k = none) : hmodify h i f k = none := by
  by_cases e : k = i
  · subst e; simp [hmodify, hk]
  · simp [hmodify, e, hk]

theorem ntfProj_setNext (h : Heap) (i : Nat) (v : Option Nat) (k : Nat) :
    ntfProj (setNext h i v) k = ntfProj h k := by
  by_cases e : k = i
  · subst e; cases hk : h k <;> simp [ntfProj, setNext, hmodify, hk]
  · simp [ntfProj, setNext, hmodify, e]

theorem ntfProj_setPrevious (h : Heap) (i : Nat) (v : Option Nat) (k : Nat) :
    ntfProj (setPrevious h i v) k = ntfProj h k := by
  by_cases e : k = i
  · subst e; cases hk : h k <;> simp [ntfProj, setPrevious, hmodify, hk]
  · simp [ntfProj, setPrevious, hmodify, e]

theorem nextPrevProj_setNextToFree (h : Heap) (i : Nat) (v : Option Nat)
    (k : Nat) : nextPrevProj (setNextToFree h i v) k = nextPrevProj h k := by
  by_cases e : k = i
  · subst e; cases hk : h k <;> simp [nextPrevProj, setNextToFree, hmodify, hk]
  · simp [nextPrevProj, setNextToFree, hmodify, e]

theorem nextPrevProj_hdelete_ne (h : Heap) (i : Nat) {k : Nat} (hk : k ≠ i) :
    nextPrevProj (hdelete h i) k = nextPrevProj h k := by
  simp [nextPrevProj, hdelete, hk]

theorem ntfProj_hdelete_ne (h : Heap) (i : Nat) {k : Nat} (hk : k ≠ i) :
    ntfProj (hdelete h i) k = ntfProj h k := by
  simp [ntfProj, hdelete, hk]

theorem nextPrevProj_hinsert_ne (h : Heap) (i : Nat) (p : Promise) {k : Nat}
    (hk : k ≠ i) : nextPrevProj (hinsert h i p) k = nextPrevProj h k := by
  simp [nextPrevProj, hinsert, hk]

theorem ntfProj_hinsert_ne (h : Heap) (i : Nat) (p : Promise) {k : Nat}
    (hk : k ≠ i) : ntfProj (hinsert h i p) k = ntfProj h k := by
  simp [ntfProj, hinsert, hk]

theorem ntfProj_setPrevious_setNext (h : Heap) (i j : Nat) (v w : Option Nat)
    (k : Nat) : ntfProj (setPrevious (setNext h i v) j w) k = ntfProj h k := by
  rw [ntfProj_setPrevious, ntfProj_setNext]

theorem setNext_ne (h : Heap) (i : Nat) (v : Option Nat) {k : Nat}
    (hk : k ≠ i) : setNext h i v k = h k :=
  hmodify_ne _ _ _ hk

theorem setPrevious_ne (h : Heap) (i : Nat) (v : Option Nat) {k : Nat}
    (hk : k ≠ i) : setPrevious h i v k = h k :=
  hmodify_ne _ _ _ hk

theorem setNextToFree_ne (h : Heap) (i : Nat) (v : Option Nat) {k : Nat}
    (hk : k ≠ i) : setNextToFree h i v k = h k :=
  hmodify_ne _ _ _ hk

theorem setNext_at (h : Heap) (i : Nat) (v : Option Nat) :
    setNext h i v i = (h i).map fun p => { p with next := v } :=
  hmodify_at _ _ _

theorem setPrevious_at (h : Heap) (i : Nat) (v : Option Nat) :
    setPrevious h i v i = (h i).map fun p => { p with previous := v } :=
  hmodify_at _ _ _

theorem setNextToFree_at (h : Heap) (i : Nat) (v : Option Nat) :
    setNextToFree h i v i = (h i).map fun p => { p with next_to_free := v } :=
  hmodify_at _ _ _

theorem hinsert_at (h : Heap) (i : Nat) (p : Promise) :
    hinsert h i p i = some p := by
  simp [hinsert]

theorem hinsert_ne (h : Heap) (i : Nat) (p : Promise) {k : Nat} (hk : k ≠ i) :
    hinsert h i p k = h k := by
  simp [hinsert, hk]

theorem nextPrevProj_congr {h h2 : Heap} {k : Nat} (e : h2 k = h k) :
    nextPrevProj h2 k = nextPrevProj h k := by
  rw [nextPrevProj, nextPrevProj, e]

theorem ntfProj_congr {h h2 : Heap} {k : Nat} (e : h2 k = h k) :
    ntfProj h2 k = ntfProj h k := by
  rw [ntfProj, ntfProj, e]

theorem hdelete_at (h : Heap) (i : Nat) : hdelete h i i = none := by
  simp [hdelete]

theorem hdelete_ne (h : Heap) (i : Nat) {k : Nat} (hk : k ≠ i) :
    hdelete h i k = h k := by
  simp [hdelete, hk]

theorem hdelete_none (h : Heap) (i : Nat) (k : Nat) (hk : h k = none) :
    hdelete h i k = none := by
  by_cases e : k = i <;> simp [hdelete, e, hk]

/-! ### Inversion lemmas for the representation predicates -/

theorem dll_nil_inv {h : Heap} {prev cur : Option Nat}
    (hd : DLL h prev cur []) : cur = none := by
  cases hd; rfl

theorem dll_none_inv {h : Heap} {prev : Option Nat} {L : List Nat}
    (hd : DLL h prev none L) : L = [] := by
  cases hd; rfl

theorem dll_cons_inv {h : Heap} {prev cur : Option Nat} {x : Nat}
    {T : List Nat} (hd : DLL h prev cur (x :: T)) :
    ∃ p, cur = some x ∧ h x = some p ∧ p.previous = prev ∧
      DLL h (some x) p.next T := by
  cases hd with
  | cons hp hprev tail => exact ⟨_, rfl, hp, hprev, tail⟩

theorem dll_some_inv {h : Heap} {prev : Option Nat} {i : Nat} {L : List Nat}
    (hd : DLL h prev (some i) L) :
    ∃ p T, L = i :: T ∧ h i = some p ∧ p.previous = prev ∧
      DLL h (some i) p.next T := by
  cases hd with
  | cons hp hprev tail => exact ⟨_, _, rfl, hp, hprev, tail⟩

theorem fchain_nil_inv {h : Heap} {cur : Option Nat}
    (hc : FChain h cur []) : cur = none := by
  cases hc; rfl

theorem fchain_cons_inv {h : Heap} {cur : Option Nat} {x : Nat} {T : List Nat}
    (hc : FChain h cur (x :: T)) :
    ∃ p, cur = some x ∧ h x = some p ∧ FChain h p.next_to_free T := by
  cases hc with
  | cons hp tail => exact ⟨_, rfl, hp, tail⟩

/-! ### Congruence: the predicates only read their own projection -/

theorem dll_congr {h h2 : Heap} {prev cur : Option Nat} {L : List Nat}
    (hd : DLL h prev cur L)
    (hag : ∀ k ∈ L, nextPrevProj h2 k = nextPrevProj h k) :
    DLL h2 prev cur L := by
  induction hd with
  | nil => exact DLL.nil
  | @cons prev i p L hp hprev tail ih =>
    have hi := hag i (List.mem_cons_self i L)
    rw [nextPrevProj, nextPrevProj, hp] at hi
    cases h2i : h2 i with
    | none => rw [h2i] at hi; simp at hi
    | some p2 =>
      rw [h2i] at hi
      have hi2 : (p2.next, p2.previous) = (p.next, p.previous) := by
        simpa using hi
      have hnx : p2.next = p.next := congrArg Prod.fst hi2
      have hpv : p2.previous = p.previous := congrArg Prod.snd hi2
      refine DLL.cons h2i (by rw [hpv, hprev]) ?_
      rw [hnx]
      exact ih fun k hk => hag k (List.mem_cons_of_mem _ hk)

theorem fchain_congr {h h2 : Heap} {cur : Option Nat} {F : List Nat}
    (hc : FChain h cur F)
    (hag : ∀ k ∈ F, ntfProj h2 k = ntfProj h k) :
    FChain h2 cur F := by
  induction hc with
  | nil => exact FChain.nil
  | @cons i p F hp tail ih =>
    have hi := hag i (List.mem_cons_self i F)
    rw [ntfProj, ntfProj, hp] at hi
    cases h2i : h2 i with
    | none => rw [h2i] at hi; simp at hi
    | some p2 =>
      rw [h2i] at hi
      have hntf : p2.next_to_free = p.next_to_free := by simpa using hi
      refine FChain.cons h2i ?_
      rw [hntf]
      exact ih fun k hk => hag k (List.mem_cons_of_mem _ hk)

theorem dll_mem_some {h : Heap} {prev cur : Option Nat} {L : List Nat}
    (hd : DLL h prev cur L) {k : Nat} (hk : k ∈ L) : ∃ p, h k = some p := by
  induction hd with
  | nil => exact absurd hk (List.not_mem_nil k)
  | @cons prev i p L hp hprev tail ih =>
    rcases List.mem_cons.mp hk with rfl | hk2
    · exact ⟨p, hp⟩
    · exact ih hk2

/-- A live list yields its abstract list under `walkNext`, given enough
fuel. -/
theorem dll_walk_eq {h : Heap} {prev cur : Option Nat} {L : List Nat}
    (hd : DLL h prev cur L) :
    ∀ fuel, L.length ≤ fuel → ThreadRegistry.walkNext h fuel cur = L := by
  induction hd with
  | nil => intro fuel _; cases fuel <;> rfl
  | @cons prev i p L hp hprev tail ih =>
    intro fuel hlen
    cases fuel with
    | zero => simp at hlen
    | succ f =>
      simp only [ThreadRegistry.walkNext, hp]
      exact congrArg (i :: ·) (ih f (by simpa using hlen))

/-! ### List bookkeeping -/

theorem erase_filter (L : List Nat) (b : Nat) (F : List Nat) (hnd : L.Nodup) :
    (L.erase b).filter (fun i => decide (i ∉ F)) =
      L.filter (fun i => decide (i ∉ b :: F)) := by
  induction L with
  | nil => rfl
  | cons x L ih =>
    have hxL : x ∉ L := (List.nodup_cons.mp hnd).1
    have hndL : L.Nodup := (List.nodup_cons.mp hnd).2
    by_cases hxb : x = b
    · subst hxb
      rw [List.erase_cons_head, List.filter_cons_of_neg (by simp)]
      exact List.filter_congr fun a ha => by
        have hax : a ≠ x := fun hh => hxL (hh ▸ ha)
        simp [hax]
    · have hxc : (x :: L).erase b = x :: L.erase b := by
        simp [List.erase_cons, hxb]
      rw [hxc]
      simp only [List.filter_cons]
      have hdec : (decide (x ∉ b :: F)) = (decide (x ∉ F)) := by
        simp [hxb]
      rw [hdec, ih hndL]

theorem filter_not_mem_nil (L : List Nat) :
    L.filter (fun i => decide (i ∉ ([] : List Nat))) = L :=
  List.filter_eq_self.mpr fun a _ => by simp

/-! ### Unlinking a record from the live list -/

/-- Unlinking a non-head record: if the live list decomposes as
`A0 ++ pr :: b :: B` then `b`'s `previous` is exactly `pr`, and rewiring
`pr->next` to `b.next` (and, when present, `b.next->previous` to
`b.previous`) yields the live list with `b` dropped.  Also returns the frame
fact that only the cells at `pr` and in `B` can differ. -/
theorem dll_remove_mid {h : Heap} {pr b : Nat} {B : List Nat} :
    ∀ (A0 : List Nat) (prev cur : Option Nat),
    DLL h prev cur (A0 ++ pr :: b :: B) → (A0 ++ pr :: b :: B).Nodup →
    ∃ ppr pb, h pr = some ppr ∧ h b = some pb ∧ ppr.next = some b ∧
      pb.previous = some pr ∧
      (∀ k, k ≠ pr → k ∉ B → removeMidHeap h pr pb k = h k) ∧
      DLL (removeMidHeap h pr pb) prev cur (A0 ++ pr :: B) := by
  intro A0
  induction A0 with
  | nil =>
    intro prev cur hd hnd
    simp only [List.nil_append] at hd hnd ⊢
    obtain ⟨ppr, hcur, hppr, hprevpr, tailpr⟩ := dll_cons_inv hd
    obtain ⟨pb, hprnext, hpb, hprevb, tailb⟩ := dll_cons_inv tailpr
    subst hcur
    have hnd1 := List.nodup_cons.mp hnd
    have hprnotin : pr ∉ b :: B := hnd1.1
    have hnd2 := List.nodup_cons.mp hnd1.2
    refine ⟨ppr, pb, hppr, hpb, hprnext, hprevb, ?_, ?_⟩
    · intro k hkpr hkB
      cases hBn : pb.next with
      | none =>
        have hrmh : removeMidHeap h pr pb = setNext h pr pb.next := by
          simp [removeMidHeap, hBn]
        rw [hrmh]
        exact setNext_ne _ _ _ hkpr
      | some nx =>
        obtain ⟨pnx, B', hB, hpnx, hprevnx, tailnx⟩ := dll_some_inv (hBn ▸ tailb)
        have hknx : k ≠ nx := fun e => hkB (hB ▸ (e ▸ List.mem_cons_self nx B'))
        have hrmh : removeMidHeap h pr pb
            = setPrevious (setNext h pr pb.next) nx pb.previous := by
          simp [removeMidHeap, hBn]
        rw [hrmh, setPrevious_ne _ _ _ hknx]
        exact setNext_ne _ _ _ hkpr
    · cases hBn : pb.next with
      | none =>
        have hB : B = [] := dll_none_inv (hBn ▸ tailb)
        subst hB
        have hrmh : removeMidHeap h pr pb = setNext h pr pb.next := by
          simp [removeMidHeap, hBn]
        have hpr2 : removeMidHeap h pr pb pr
            = some { ppr with next := pb.next } := by
          rw [hrmh, setNext_at, hppr]
          rfl
        refine DLL.cons hpr2 (by simpa using hprevpr) ?_
        show DLL (removeMidHeap h pr pb) (some pr) pb.next []
        rw [hBn]
        exact DLL.nil
      | some nx =>
        obtain ⟨pnx, B', hB, hpnx, hprevnx, tailnx⟩ := dll_some_inv (hBn ▸ tailb)
        subst hB
        have hprnx : pr ≠ nx := fun e =>
          hprnotin (by rw [e]; exact List.mem_cons_of_mem _ (List.mem_cons_self nx B'))
        have hprB' : pr ∉ B' := fun hh =>
          hprnotin (List.mem_cons_of_mem _ (List.mem_cons_of_mem _ hh))
        have hbnx : b ≠ nx := fun e => hnd2.1 (e ▸ List.mem_cons_self nx B')
        have hnxB' : nx ∉ B' := (List.nodup_cons.mp hnd2.2).1
        have hrmh : removeMidHeap h pr pb
            = setPrevious (setNext h pr pb.next) nx pb.previous := by
          simp [removeMidHeap, hBn]
        have hpr2 : removeMidHeap h pr pb pr
            = some { ppr with next := pb.next } := by
          rw [hrmh, setPrevious_ne _ _ _ hprnx, setNext_at, hppr]
          rfl
        have hnx2 : removeMidHeap h pr pb nx
            = some { pnx with previous := pb.previous } := by
          rw [hrmh, setPrevious_at, setNext_ne _ _ _ (Ne.symm hprnx), hpnx]
          rfl
        refine DLL.cons hpr2 (by simpa using hprevpr) ?_
        show DLL (removeMidHeap h pr pb) (some pr) pb.next (nx :: B')
        rw [hBn]
        refine DLL.cons hnx2 (by simpa using hprevb) ?_
        show DLL (removeMidHeap h pr pb) (some nx) pnx.next B'
        refine dll_congr tailnx ?_
        intro k hk
        have hkpr : k ≠ pr := fun e => hprB' (e ▸ hk)
        have hknx : k ≠ nx := fun e => hnxB' (e ▸ hk)
        rw [nextPrevProj, nextPrevProj, hrmh, setPrevious_ne _ _ _ hknx,
          setNext_ne _ _ _ hkpr]
  | cons a A0' ih =>
    intro prev cur hd hnd
    rw [List.cons_append] at hd hnd
    obtain ⟨pa, hcur, hpa, hpreva, taila⟩ := dll_cons_inv hd
    subst hcur
    have hanotin : a ∉ A0' ++ pr :: b :: B := (List.nodup_cons.mp hnd).1
    have hndtail : (A0' ++ pr :: b :: B).Nodup := (List.nodup_cons.mp hnd).2
    obtain ⟨ppr, pb, hppr, hpb, hprnext, hprevb, hframe, hdll2⟩ :=
      ih (some a) pa.next taila hndtail
    refine ⟨ppr, pb, hppr, hpb, hprnext, hprevb, hframe, ?_⟩
    rw [List.cons_append]
    have hapr : a ≠ pr := fun e =>
      hanotin (by rw [e]; exact List.mem_append_right _ (List.mem_cons_self pr _))
    have haB : a ∉ B := fun hh =>
      hanotin (List.mem_append_right _
        (List.mem_cons_of_mem _ (List.mem_cons_of_mem _ hh)))
    have ha2 : removeMidHeap h pr pb a = some pa := by
      rw [hframe a hapr haB, hpa]
    exact DLL.cons ha2 hpreva hdll2

/-- `ThreadRegistry::remove` on a record of a well-formed live list produces
the live list with that record erased. -/
theorem removeAux_dll {h : Heap} {hd0 : Option Nat} {L : List Nat} {b : Nat}
    (hdll : DLL h none hd0 L) (hnd : L.Nodup) (hb : b ∈ L) :
    DLL (ThreadRegistry.removeAux h hd0 b).1 none
      (ThreadRegistry.removeAux h hd0 b).2 (L.erase b) := by
  obtain ⟨A, B, rfl⟩ := List.append_of_mem hb
  rcases List.eq_nil_or_concat A with rfl | ⟨A0, pr, rfl⟩
  · simp only [List.nil_append] at hdll hnd ⊢
    obtain ⟨pb, hcur, hpb, hprevb, tailb⟩ := dll_cons_inv hdll
    subst hcur
    rw [List.erase_cons_head]
    cases hBn : pb.next with
    | none =>
      have hB : B = [] := dll_none_inv (hBn ▸ tailb)
      subst hB
      have hres : ThreadRegistry.removeAux h (some b) b = (h, pb.next) := by
        simp [ThreadRegistry.removeAux, hpb, hprevb, hBn]
      rw [hres]
      show DLL h none pb.next []
      rw [hBn]
      exact DLL.nil
    | some nx =>
      obtain ⟨pnx, B', hB, hpnx, hprevnx, tailnx⟩ := dll_some_inv (hBn ▸ tailb)
      subst hB
      have hndc := List.nodup_cons.mp hnd
      have hnxB' : nx ∉ B' := (List.nodup_cons.mp hndc.2).1
      have hres : ThreadRegistry.removeAux h (some b) b
          = (setPrevious h nx none, some nx) := by
        simp [ThreadRegistry.removeAux, hpb, hprevb, hBn]
      rw [hres]
      have hnx2 : setPrevious h nx none nx = some { pnx with previous := none } := by
        rw [setPrevious_at, hpnx]
        rfl
      refine DLL.cons hnx2 rfl ?_
      show DLL (setPrevious h nx none) (some nx) pnx.next B'
      refine dll_congr tailnx ?_
      intro k hk
      have hknx : k ≠ nx := fun e => hnxB' (e ▸ hk)
      rw [nextPrevProj, nextPrevProj, setPrevious_ne _ _ _ hknx]
  · simp only [List.concat_eq_append, List.append_assoc,
      List.singleton_append] at hdll hnd ⊢
    obtain ⟨ppr, pb, hppr, hpb, hprnext, hprevb, hframe, hdll2⟩ :=
      dll_remove_mid A0 none hd0 hdll hnd
    have hsplit := List.nodup_append.mp hnd
    have hbA0 : b ∉ A0 := fun hh =>
      hsplit.2.2 hh (List.mem_cons_of_mem _ (List.mem_cons_self b B))
    have hprb : pr ≠ b := by
      have := (List.nodup_cons.mp hsplit.2.1).1
      exact fun e => this (e ▸ List.mem_cons_self b B)
    have hbApr : b ∉ A0 ++ [pr] := by
      intro hh
      rcases List.mem_append.mp hh with h1 | h1
      · exact hbA0 h1
      · exact hprb ((List.mem_singleton.mp h1).symm)
    have hres : ThreadRegistry.removeAux h hd0 b = (removeMidHeap h pr pb, hd0) := by
      cases hBn : pb.next with
      | none => simp [ThreadRegistry.removeAux, hpb, hprevb, hBn, removeMidHeap]
      | some nx => simp [ThreadRegistry.removeAux, hpb, hprevb, hBn, removeMidHeap]
    have herase : (A0 ++ pr :: b :: B).erase b = A0 ++ pr :: B := by
      rw [show A0 ++ pr :: b :: B = (A0 ++ [pr]) ++ b :: B from by simp,
        List.erase_append_right _ hbApr, List.erase_cons_head]
      simp
    rw [hres, herase]
    exact hdll2

/-- `ThreadRegistry::remove` never writes `next_to_free`. -/
theorem removeAux_ntf (h : Heap) (hd0 : Option Nat) (b : Nat) (k : Nat) :
    ntfProj (ThreadRegistry.removeAux h hd0 b).1 k = ntfProj h k := by
  unfold ThreadRegistry.removeAux
  cases hpb : h b with
  | none => rfl
  | some pb =>
    cases hpv : pb.previous <;> cases hbn : pb.next <;>
      simp [hpv, hbn, ntfProj_setNext, ntfProj_setPrevious]

/-- `ThreadRegistry::remove` never resurrects a freed cell. -/
theorem removeAux_none (h : Heap) (hd0 : Option Nat) (b : Nat) (k : Nat)
    (hk : h k = none) : (ThreadRegistry.removeAux h hd0 b).1 k = none := by
  unfold ThreadRegistry.removeAux
  cases hpb : h b with
  | none => exact hk
  | some pb =>
    cases hpv : pb.previous <;> cases hbn : pb.next <;>
      simp [hpv, hbn, setNext, setPrevious, hmodify_none, hk]

/-- `gcLoop` touches only `heap`, `promise_head` and the ghost `destroyed`
trace; every other registry field passes through unchanged. -/
theorem gcLoop_frame (fuel : Nat) (R : ThreadRegistry) (cur : Option Nat) :
    (ThreadRegistry.gcLoop fuel R cur).free_head = R.free_head ∧
    (ThreadRegistry.gcLoop fuel R cur).ref_count = R.ref_count ∧
    (ThreadRegistry.gcLoop fuel R cur).owning_thread = R.owning_thread ∧
    (ThreadRegistry.gcLoop fuel R cur).allocs = R.allocs ∧
    (ThreadRegistry.gcLoop fuel R cur).regId = R.regId := by
  induction fuel generalizing R cur with
  | zero => exact ⟨rfl, rfl, rfl, rfl, rfl⟩
  | succ n ih =>
    cases cur with
    | none => exact ⟨rfl, rfl, rfl, rfl, rfl⟩
    | some i =>
      simp only [ThreadRegistry.gcLoop]
      exact ih _ _

/-- Collecting an empty chain is the identity. -/
theorem gcLoop_none (fuel : Nat) (R : ThreadRegistry) :
    ThreadRegistry.gcLoop fuel R none = R := by
  cases fuel <;> rfl

/-- After a garbage-collection pass the free list is empty. -/
theorem garbage_collect_run_free_head (R : ThreadRegistry) :
    R.garbage_collect_run.free_head = none := by
  unfold ThreadRegistry.garbage_collect_run
  have h := (gcLoop_frame R.allocs { R with free_head := none } R.free_head).1
  simpa using h

/-- Writing `none` into an already empty `free_head` is the identity. -/
theorem set_free_head_none_eq (R : ThreadRegistry) (h : R.free_head = none) :
    { R with free_head := none } = R := by
  cases R
  simp_all

/-- Main garbage-collection loop invariant: collecting a free chain `F` (all
of whose records lie on the live list `L`, each at most once) unlinks and
destroys exactly the records of `F`: the surviving live list is `L` without
`F`'s records, each record of `F` is destroyed exactly once (appended once to
the destruction trace, its cell freed), and no freed cell is resurrected. -/
theorem gcLoop_spec :
    ∀ (F : List Nat) (fuel : Nat) (R : ThreadRegistry) (cur : Option Nat)
      (L : List Nat),
    DLL R.heap none R.promise_head L → L.Nodup →
    FChain R.heap cur F → F.Nodup → (∀ i ∈ F, i ∈ L) →
    F.length ≤ fuel →
    DLL (ThreadRegistry.gcLoop fuel R cur).heap none
        (ThreadRegistry.gcLoop fuel R cur).promise_head
        (L.filter fun i => decide (i ∉ F)) ∧
    (L.filter fun i => decide (i ∉ F)).Nodup ∧
    (ThreadRegistry.gcLoop fuel R cur).destroyed = R.destroyed ++ F ∧
    (∀ i ∈ F, (ThreadRegistry.gcLoop fuel R cur).heap i = none) ∧
    (∀ k, R.heap k = none → (ThreadRegistry.gcLoop fuel R cur).heap k = none) := by
  intro F
  induction F with
  | nil =>
    intro fuel R cur L hdll hndL hfc _ _ _
    have hcur : cur = none := fchain_nil_inv hfc
    subst hcur
    rw [gcLoop_none, filter_not_mem_nil]
    exact ⟨hdll, hndL, by simp, by simp, fun k hk => hk⟩
  | cons b F' ih =>
    intro fuel R cur L hdll hndL hfc hndF hsub hlen
    obtain ⟨pb, hcur, hpb, tailf⟩ := fchain_cons_inv hfc
    subst hcur
    cases fuel with
    | zero => simp at hlen
    | succ f =>
      have hstep : ThreadRegistry.gcLoop (f + 1) R (some b)
          = ThreadRegistry.gcLoop f ((R.remove b).destroy b) pb.next_to_free := by
        simp [ThreadRegistry.gcLoop, hpb]
      rw [hstep]
      have hbL : b ∈ L := hsub b (List.mem_cons_self b F')
      have hbF' : b ∉ F' := (List.nodup_cons.mp hndF).1
      have hndF' : F'.Nodup := (List.nodup_cons.mp hndF).2
      have hdll2 : DLL ((R.remove b).destroy b).heap none
          ((R.remove b).destroy b).promise_head (L.erase b) := by
        refine dll_congr (removeAux_dll hdll hndL hbL) ?_
        intro k hk
        have hkb : k ≠ b := fun e => by
          subst e
          exact ((List.Nodup.mem_erase_iff hndL).mp hk).1 rfl
        exact nextPrevProj_hdelete_ne _ _ hkb
      have hnd2 : (L.erase b).Nodup := hndL.erase b
      have hfc2 : FChain ((R.remove b).destroy b).heap pb.next_to_free F' := by
        refine fchain_congr tailf ?_
        intro k hk
        have hkb : k ≠ b := fun e => hbF' (e ▸ hk)
        calc ntfProj ((R.remove b).destroy b).heap k
            = ntfProj (R.remove b).heap k := ntfProj_hdelete_ne _ _ hkb
          _ = ntfProj R.heap k := removeAux_ntf _ _ _ _
      have hsub2 : ∀ i ∈ F', i ∈ L.erase b := by
        intro i hi
        have hib : i ≠ b := fun e => hbF' (e ▸ hi)
        exact (List.Nodup.mem_erase_iff hndL).mpr
          ⟨hib, hsub i (List.mem_cons_of_mem _ hi)⟩
      have hlen2 : F'.length ≤ f := by simpa using hlen
      obtain ⟨ihdll, ihnd, ihdes, ihnone, ihpres⟩ :=
        ih f ((R.remove b).destroy b) pb.next_to_free (L.erase b)
          hdll2 hnd2 hfc2 hndF' hsub2 hlen2
      have hfilter := erase_filter L b F' hndL
      refine ⟨?_, ?_, ?_, ?_, ?_⟩
      · rw [← hfilter]; exact ihdll
      · rw [← hfilter]; exact ihnd
      · rw [ihdes]
        have hdes2 : ((R.remove b).destroy b).destroyed = R.destroyed ++ [b] := rfl
        rw [hdes2]
        simp
      · intro i hi
        rcases List.mem_cons.mp hi with rfl | hi2
        · exact ihpres i (hdelete_at _ _)
        · exact ihnone i hi2
      · intro k hk
        exact ihpres k (hdelete_none _ _ _ (removeAux_none _ _ _ _ hk))

/-! ### Invariant preservation -/

/-- Unfolding of a successful owner-thread `add`. -/
theorem add_eq (R : ThreadRegistry) (i : Nat) (p : Promise) :
    R.add R.owning_thread i p = some (ThreadRegistry.increment_ref_count
      { R with
          heap := match R.promise_head with
            | some hd => setPrevious (hinsert R.heap i
                { p with next := R.promise_head, registry := some R.regId })
                hd (some i)
            | none => hinsert R.heap i
                { p with next := R.promise_head, registry := some R.regId },
          promise_head := some i,
          allocs := R.allocs + 1 }) := by
  unfold ThreadRegistry.add
  rw [if_pos rfl]

/-- Owner-thread insertion of a fresh record preserves the registry
invariant, prepending the record to the live list. -/
theorem add_wf {R : ThreadRegistry} {L F : List Nat} {i : Nat} {th : Thread}
    {loc : SourceLocation} {R2 : ThreadRegistry}
    (hwf : Wf R L F) (hfresh : R.heap i = none)
    (hstep : R.add R.owning_thread i (PromiseInit th loc) = some R2) :
    Wf R2 (i :: L) F := by
  obtain ⟨d, nL, fc, nF, s, len, dom⟩ := hwf
  have hiL : i ∉ L := by
    intro hh
    obtain ⟨p, hp⟩ := dll_mem_some d hh
    rw [hfresh] at hp
    exact Option.noConfusion hp
  rw [add_eq] at hstep
  have hR2 := (Option.some.inj hstep).symm
  have hphead : R2.promise_head = some i := by rw [hR2]; rfl
  have hfh : R2.free_head = R.free_head := by rw [hR2]; rfl
  have hallocs : R2.allocs = R.allocs + 1 := by rw [hR2]; rfl

  cases hph : R.promise_head with
  | none =>
    have hL : L = [] := dll_none_inv (hph ▸ d)
    subst hL
    have hheap : R2.heap = hinsert R.heap i
        { PromiseInit th loc with next := none, registry := some R.regId } := by
      rw [hR2, hph]
      rfl
    refine ⟨?_, ?_, ?_, nF, ?_, ?_, ?_⟩
    · rw [hheap, hphead]
      exact DLL.cons (hinsert_at _ _ _) rfl DLL.nil
    · simp
    · rw [hheap, hfh]
      refine fchain_congr fc ?_
      intro k hk
      have hkL : k ∈ ([] : List Nat) := s k hk
      exact absurd hkL (List.not_mem_nil k)
    · intro k hk
      exact List.mem_cons_of_mem _ (s k hk)
    · rw [hallocs]
      exact Nat.succ_le_succ len
    · intro k q hk
      rw [hheap] at hk
      by_cases e : k = i
      · exact e ▸ List.mem_cons_self i _
      · rw [hinsert_ne _ _ _ e] at hk
        exact List.mem_cons_of_mem _ (dom k q hk)
  | some hd =>
    obtain ⟨phd, L', hL, hphd, hprevhd, tailhd⟩ := dll_some_inv (hph ▸ d)
    subst hL
    have hihd : i ≠ hd := fun e => hiL (e ▸ List.mem_cons_self hd L')
    have hhdL' : hd ∉ L' := (List.nodup_cons.mp nL).1
    have hheap : R2.heap = setPrevious (hinsert R.heap i
        { PromiseInit th loc with next := some hd, registry := some R.regId })
        hd (some i) := by
      rw [hR2, hph]
      rfl
    refine ⟨?_, List.nodup_cons.mpr ⟨hiL, nL⟩, ?_, nF, ?_, ?_, ?_⟩
    · rw [hheap, hphead]
      have hei : setPrevious (hinsert R.heap i
          { PromiseInit th loc with next := some hd, registry := some R.regId })
          hd (some i) i
          = some { PromiseInit th loc with
                     next := some hd, registry := some R.regId } := by
        rw [setPrevious_ne _ _ _ hihd, hinsert_at]
      refine DLL.cons hei rfl ?_
      show DLL _ (some i) (some hd) (hd :: L')
      have hehd : setPrevious (hinsert R.heap i
          { PromiseInit th loc with next := some hd, registry := some R.regId })
          hd (some i) hd = some { phd with previous := some i } := by
        rw [setPrevious_at, hinsert_ne _ _ _ (Ne.symm hihd), hphd]
        rfl
      refine DLL.cons hehd rfl ?_
      show DLL _ (some hd) phd.next L'
      refine dll_congr tailhd ?_
      intro k hk
      have hki : k ≠ i := fun e => hiL (e ▸ List.mem_cons_of_mem _ hk)
      have hkhd : k ≠ hd := fun e => hhdL' (e ▸ hk)
      exact nextPrevProj_congr
        (by rw [setPrevious_ne _ _ _ hkhd, hinsert_ne _ _ _ hki])
    · rw [hheap, hfh]
      refine fchain_congr fc ?_
      intro k hk
      have hkL : k ∈ hd :: L' := s k hk
      have hki : k ≠ i := fun e => hiL (e ▸ hkL)
      rw [ntfProj_setPrevious]
      exact ntfProj_congr (hinsert_ne _ _ _ hki)
    · intro k hk
      exact List.mem_cons_of_mem _ (s k hk)
    · rw [hallocs]
      exact Nat.succ_le_succ len
    · intro k q hk
      rw [hheap] at hk
      by_cases e : k = i
      · exact e ▸ List.mem_cons_self i _
      · by_cases ehd : k = hd
        · rw [ehd]
          exact List.mem_cons_of_mem _ (List.mem_cons_self hd L')
        · rw [setPrevious_ne _ _ _ ehd, hinsert_ne _ _ _ e] at hk
          exact List.mem_cons_of_mem _ (dom k q hk)

/-- A completed, non-final `mark_for_deletion` of a not-yet-marked record
preserves the registry invariant, prepending the record to the free chain
(and leaving the live list unchanged). -/
theorem mark_wf {R : ThreadRegistry} {L F : List Nat} {i : Nat}
    {R2 : ThreadRegistry} (hwf : Wf R L F) (hnotF : i ∉ F)
    (hstep : R.mark_for_deletion i = some (R2, false)) :
    Wf R2 L (i :: F) := by
  obtain ⟨d, nL, fc, nF, s, len, dom⟩ := hwf
  unfold ThreadRegistry.mark_for_deletion at hstep
  cases hpi : R.heap i with
  | none =>
    rw [hpi] at hstep
    exact Option.noConfusion hstep
  | some p =>
    simp only [hpi] at hstep
    by_cases hreg : p.registry = some R.regId
    · rw [if_pos hreg] at hstep
      have hpair := Option.some.inj hstep
      simp only [ThreadRegistry.decrement_ref_count] at hpair
      by_cases hrc : R.ref_count = 1
      · rw [if_pos hrc] at hpair
        injection hpair with _ hflag
        exact Bool.noConfusion hflag
      · rw [if_neg hrc] at hpair
        injection hpair with hR2 _
        have hheap : R2.heap = setNextToFree R.heap i R.free_head := by
          rw [← hR2]
        have hfh : R2.free_head = some i := by rw [← hR2]
        have hphd : R2.promise_head = R.promise_head := by rw [← hR2]
        have hallocs : R2.allocs = R.allocs := by rw [← hR2]
        refine ⟨?_, nL, ?_, List.nodup_cons.mpr ⟨hnotF, nF⟩, ?_, ?_, ?_⟩
        · rw [hheap, hphd]
          exact dll_congr d fun k _ => nextPrevProj_setNextToFree _ _ _ _
        · rw [hheap, hfh]
          have hei : setNextToFree R.heap i R.free_head i
              = some { p with next_to_free := R.free_head } := by
            rw [setNextToFree_at, hpi]
            rfl
          refine FChain.cons hei ?_
          show FChain _ R.free_head F
          refine fchain_congr fc ?_
          intro k hk
          have hki : k ≠ i := fun e => hnotF (e ▸ hk)
          exact ntfProj_congr (setNextToFree_ne _ _ _ hki)
        · intro k hk
          rcases List.mem_cons.mp hk with rfl | hk2
          · exact dom k p hpi
          · exact s k hk2
        · rw [hallocs]
          exact len
        · intro k q hk
          rw [hheap] at hk
          by_cases e : k = i
          · exact e ▸ dom i p hpi
          · rw [setNextToFree_ne _ _ _ e] at hk
            exact dom k q hk
    · rw [if_neg hreg] at hstep
      exact Option.noConfusion hstep

/-- Every reachable registry state satisfies the invariant. -/
theorem reachable_wf {R : ThreadRegistry} {L F : List Nat}
    (h : Reachable R L F) : Wf R L F := by
  induction h with
  | make t rid =>
    refine ⟨DLL.nil, List.nodup_nil, FChain.nil, List.nodup_nil, ?_, ?_, ?_⟩
    · intro k hk
      exact absurd hk (List.not_mem_nil k)
    · exact Nat.le_refl 0
    · intro k q hk
      exact Option.noConfusion hk
  | incr h ih =>
    obtain ⟨d, nL, fc, nF, s, len, dom⟩ := ih
    exact ⟨d, nL, fc, nF, s, len, dom⟩
  | add h hfresh hstep ih => exact add_wf ih hfresh hstep
  | mark h hnotF hstep ih => exact mark_wf ih hnotF hstep

/-! ## Claims -/

/-- **C10** A registry freshly created via `ThreadRegistry::make()` starts with
`ref_count = 0`, `promise_head` and `free_head` both null, and `owning_thread`
equal to the creating thread; consequently `for_promise` on a fresh registry
invokes its callback zero times and `garbage_collect` on it destroys nothing
(it leaves the registry in its creation state, with an empty destruction
trace). -/
theorem make_initial_state (t rid : Nat) :
    (ThreadRegistry.make t rid).ref_count = 0 ∧
    (ThreadRegistry.make t rid).promise_head = none ∧
    (ThreadRegistry.make t rid).free_head = none ∧
    (ThreadRegistry.make t rid).owning_thread = t ∧
    (ThreadRegistry.make t rid).for_promise = [] ∧
    (ThreadRegistry.make t rid).garbage_collect_run = ThreadRegistry.make t rid ∧
    (ThreadRegistry.make t rid).destroyed = [] :=
  ⟨rfl, rfl, rfl, rfl, rfl, rfl, rfl⟩

/-- **C5** Calling `add` from a thread other than the registry's
`owning_thread` hits the fatal assertion (`ADB_PROD_ASSERT` aborts, modelled
as `none`); since the abort happens before any write, no partial insertion is
observable on this path. -/
theorem add_wrong_thread_fatal (R : ThreadRegistry) (caller i : Nat)
    (p : Promise) (hne : caller ≠ R.owning_thread) :
    R.add caller i p = none := by
  simp [ThreadRegistry.add, hne]

/-- Witness for C5 at a concrete input. -/
theorem add_wrong_thread_fatal_witness :
    (ThreadRegistry.make 1 0).add 2 10
      (PromiseInit ⟨"U", 2⟩ ⟨"file.cpp", "fn", 3⟩) = none :=
  add_wrong_thread_fatal _ _ _ _ (by decide)

/-- **C3** Single-thread lifecycle: after `add(A)`, `add(B)`, `add(C)` a
`for_promise` traversal visits exactly `[C, B, A]` (LIFO insertion order);
after `mark_for_deletion(B)` a traversal still visits `[C, B, A]`; after a
subsequent `garbage_collect` on the owner thread a traversal visits exactly
`[C, A]`. -/
theorem single_thread_lifecycle :
    lifecycleAdds.map ThreadRegistry.for_promise = some [30, 20, 10] ∧
    lifecycleMarked.map ThreadRegistry.for_promise = some [30, 20, 10] ∧
    lifecycleCollected.map ThreadRegistry.for_promise = some [30, 10] := by
  refine ⟨by decide, by decide, by decide⟩

/-- **C9** A default-constructed (never attached) registration handle returns
the null sentinel from `id()`, all of its mutators leave the registry state
untouched, and its destruction marks nothing for deletion (and does not
deallocate the registry). -/
theorem default_handle_noop (R : ThreadRegistry) (s : State)
    (loc : SourceLocation) (aw sw : Nat) :
    (AddToAsyncRegistry.mk none).id = none ∧
    (AddToAsyncRegistry.mk none).update_state R s = R ∧
    (AddToAsyncRegistry.mk none).update_source_location R loc = R ∧
    (AddToAsyncRegistry.mk none).set_promise_waiter_async R aw = R ∧
    (AddToAsyncRegistry.mk none).set_promise_waiter_sync R sw = R ∧
    (AddToAsyncRegistry.mk none).destruct R = some (R, false) :=
  ⟨rfl, rfl, rfl, rfl, rfl, rfl⟩

/-- **C8** `update_source_location(loc)` on an attached handle rewrites only
the record's `source_location.line` (to `loc.line`): the stored record is `p`
with just that field replaced — its `file_name`, `function_name`, `thread`,
`waiter`, `state`, `registry` and list pointers are `p`'s, the record stays at
its address `i` (its identity), every other heap cell is untouched, and all
registry fields are unchanged. -/
theorem update_source_location_line_only (hd : AddToAsyncRegistry)
    (R : ThreadRegistry) (i : Nat) (p : Promise) (loc : SourceLocation)
    (hi : hd.promise_in_registry = some i) (hp : R.heap i = some p) :
    (hd.update_source_location R loc).heap i =
      some { p with source_location :=
        { p.source_location with line := loc.line } } ∧
    (hd.update_source_location R loc).promise_head = R.promise_head ∧
    (hd.update_source_location R loc).free_head = R.free_head ∧
    (hd.update_source_location R loc).ref_count = R.ref_count ∧
    (hd.update_source_location R loc).owning_thread = R.owning_thread ∧
    (hd.update_source_location R loc).destroyed = R.destroyed ∧
    (∀ k, k ≠ i → (hd.update_source_location R loc).heap k = R.heap k) := by
  have hmatch : hd.update_source_location R loc =
      { R with heap := hmodify R.heap i fun q =>
          { q with source_location := { q.source_location with line := loc.line } } } := by
    unfold AddToAsyncRegistry.update_source_location
    rw [hi]
  refine ⟨?_, by rw [hmatch], by rw [hmatch], by rw [hmatch], by rw [hmatch],
    by rw [hmatch], ?_⟩
  · rw [hmatch]
    simp [hmodify, hp]
  · intro k hk
    rw [hmatch]
    simp [hmodify, hk]

/-- Witness for C8 at a concrete input. -/
theorem update_source_location_line_only_witness :
    ((AddToAsyncRegistry.mk (some 10)).update_source_location cexMarkBase
        ⟨"file.cpp", "coro_fn", 42⟩).heap 10 =
      some { ({ p0 with registry := some 0 } : Promise) with source_location :=
        { ({ p0 with registry := some 0 } : Promise).source_location with
            line := 42 } } :=
  (update_source_location_line_only (AddToAsyncRegistry.mk (some 10))
    cexMarkBase 10 { p0 with registry := some 0 } ⟨"file.cpp", "coro_fn", 42⟩
    rfl rfl).1

/-- **C1 counterexample** Claim C1 states that `mark_for_deletion` first sets
the record's state to `Deleted` and that a snapshot taken after the CAS never
observes another state.  On the code this is false: `ThreadRegistry::
mark_for_deletion` (thread_registry.h, lines 80-91) never writes `state`.
Concretely, for a registry with one record (address 10, state `Running`) and
a directory reference, after `mark_for_deletion(10)` has completed (CAS
included: `free_head = 10`), a snapshot of the record still observes
`Running`, not `Deleted`. -/
theorem mark_for_deletion_state_cex :
    ((cexMarkBase.mark_for_deletion 10).map fun x =>
        (x.1.heap 10).map fun p => (p.snapshot 10).state)
      = some (some State.Running) ∧
    ((cexMarkBase.mark_for_deletion 10).map fun x => x.1.free_head)
      = some (some 10) ∧
    ((cexMarkBase.mark_for_deletion 10).map fun x => x.2) = some false := by
  refine ⟨by decide, by decide, by decide⟩

/-- **C1 amended** `mark_for_deletion(r)` checks `r.registry == R`, links `r`
onto `R.free_head` via the CAS on `next_to_free`, and finally decrements the
refcount; it does not write `r`'s state, so a snapshot of `r` taken after the
CAS observes the state `r` had before the call (here stated for a call that
does not drop the last reference). -/
theorem mark_for_deletion_links_and_preserves_state (R : ThreadRegistry)
    (i : Nat) (p : Promise) (hp : R.heap i = some p)
    (hreg : p.registry = some R.regId) (hrc : R.ref_count ≠ 1) :
    R.mark_for_deletion i =
      some ({ R with
                heap := setNextToFree R.heap i R.free_head,
                free_head := some i,
                ref_count := R.ref_count - 1 }, false) ∧
    ((R.mark_for_deletion i).map fun x => (x.1.heap i).map fun q =>
        (q.snapshot i).state) = some (some p.state) := by
  have hmark : R.mark_for_deletion i =
      some ({ R with
                heap := setNextToFree R.heap i R.free_head,
                free_head := some i,
                ref_count := R.ref_count - 1 }, false) := by
    unfold ThreadRegistry.mark_for_deletion
    rw [hp]
    simp [hreg, ThreadRegistry.decrement_ref_count, hrc]
  refine ⟨hmark, ?_⟩
  rw [hmark]
  simp [setNextToFree, hmodify, hp, Promise.snapshot]

/-- Witness for the amended C1 at a concrete input. -/
theorem mark_for_deletion_links_and_preserves_state_witness :
    cexMarkBase.mark_for_deletion 10 =
      some ({ cexMarkBase with
              heap := setNextToFree cexMarkBase.heap 10 cexMarkBase.free_head,
              free_head := some 10,
              ref_count := cexMarkBase.ref_count - 1 }, false) ∧
    ((cexMarkBase.mark_for_deletion 10).map fun x => (x.1.heap 10).map fun q =>
        (q.snapshot 10).state)
      = some (some ({ p0 with registry := some 0 } : Promise).state) :=
  mark_for_deletion_links_and_preserves_state cexMarkBase 10
    { p0 with registry := some 0 } rfl rfl (by decide)

/-- **C2 counterexample** Claim C2 states that a state regression (e.g.
`Resolved` back to `Running`) triggers a fatal assertion rather than being
stored.  On the code this is false: `AddToAsyncRegistry::update_state`
(promise.h, lines 222-226) contains no assertion and is an unconditional
store.  Concretely, with the attached record in state `Resolved`,
`update_state(Running)` returns normally and the record's state is the
regressed `Running`. -/
theorem update_state_regression_cex :
    (((AddToAsyncRegistry.mk (some 10)).update_state cexResolved
        State.Running).heap 10).map Promise.state = some State.Running ∧
    (cexResolved.heap 10).map Promise.state = some State.Resolved := by
  refine ⟨by decide, by decide⟩

/-- **C2 amended** `update_state(s)` on an attached handle release-stores `s`
into the record unconditionally — there is no check against the current state
and no failure path (the operation is total), so a regressed state is silently
stored; no other heap cell changes. -/
theorem update_state_stores_unconditionally (R : ThreadRegistry) (i : Nat)
    (p : Promise) (s : State) (hp : R.heap i = some p) :
    ((AddToAsyncRegistry.mk (some i)).update_state R s).heap i
      = some { p with state := s } ∧
    (∀ k, k ≠ i →
      ((AddToAsyncRegistry.mk (some i)).update_state R s).heap k = R.heap k) := by
  constructor
  · simp [AddToAsyncRegistry.update_state, hmodify, hp]
  · intro k hk
    simp [AddToAsyncRegistry.update_state, hmodify, hk]

/-- Witness for the amended C2 at a concrete input (the regression
`Resolved → Running` is stored). -/
theorem update_state_stores_unconditionally_witness :
    ((AddToAsyncRegistry.mk (some 10)).update_state cexResolved
        State.Running).heap 10
      = some { ({ p0 with registry := some 0, state := State.Resolved } :
          Promise) with state := State.Running } :=
  (update_state_stores_unconditionally cexResolved 10
    { p0 with registry := some 0, state := State.Resolved } State.Running
    (by decide)).1

/-- **C7** `garbage_collect` is idempotent: when a `garbage_collect` call
returns state `R1` and no `mark_for_deletion` intervenes, running
`garbage_collect` again (same caller) passes its assertion and returns exactly
`R1` — the second pass destroys nothing and modifies neither the live-list
head nor `free_head`. -/
theorem garbage_collect_idempotent (R R1 : ThreadRegistry) (caller : Nat)
    (h : R.garbage_collect caller = some R1) :
    R1.garbage_collect caller = some R1 := by
  unfold ThreadRegistry.garbage_collect at h ⊢
  by_cases hc : R.ref_count = 0 ∨ caller = R.owning_thread
  · simp only [hc, if_pos] at h
    have hR1 : R1 = R.garbage_collect_run :=
      ((Option.some.injEq _ _).mp h.symm)
    have hfields := gcLoop_frame R.allocs { R with free_head := none } R.free_head
    have hrc : R1.ref_count = R.ref_count := by
      rw [hR1]; exact hfields.2.1
    have hot : R1.owning_thread = R.owning_thread := by
      rw [hR1]; exact hfields.2.2.1
    have hc1 : R1.ref_count = 0 ∨ caller = R1.owning_thread := by
      rw [hrc, hot]; exact hc
    rw [if_pos hc1]
    have hfh : R1.free_head = none := by
      rw [hR1]; exact garbage_collect_run_free_head R
    have hrun : R1.garbage_collect_run = R1 := by
      unfold ThreadRegistry.garbage_collect_run
      rw [hfh, gcLoop_none]
      exact set_free_head_none_eq R1 hfh
    rw [hrun]
  · rw [if_neg hc] at h
    exact absurd h (by simp)

/-- Witness for C7 at a concrete input. -/
theorem garbage_collect_idempotent_witness :
    (ThreadRegistry.make 1 0).garbage_collect 1 =
      some (ThreadRegistry.make 1 0) :=
  garbage_collect_idempotent (ThreadRegistry.make 1 0)
    (ThreadRegistry.make 1 0) 1 rfl

/-- The state `gcW3` (directory reference; records 20, 10 live, 10 marked) is
reachable. -/
theorem gcW3_reachable : Reachable gcW3 [20, 10] [10] := by
  have h0 : Reachable ((ThreadRegistry.make 1 0).increment_ref_count) [] [] :=
    Reachable.incr (Reachable.make 1 0)
  have h1 : Reachable cexMarkBase [10] [] :=
    @Reachable.add ((ThreadRegistry.make 1 0).increment_ref_count) [] [] 10
      ⟨"T", 1⟩ ⟨"file.cpp", "coro_fn", 1⟩ cexMarkBase h0 rfl rfl
  have h2 : Reachable gcW2 [20, 10] [] :=
    @Reachable.add cexMarkBase [10] [] 20
      ⟨"T", 1⟩ ⟨"file.cpp", "coro_fn", 1⟩ gcW2 h1 rfl rfl
  exact @Reachable.mark gcW2 [20, 10] [] 10 gcW3 h2 (by simp) rfl

/-- **C4** For every registry state reachable by owner-thread adds, directory
references and completed (at-most-once) marks: `garbage_collect` on the owner
thread passes its assertion and returns a state whose `free_head` is null, in
which every marked record has been destroyed exactly once (the destruction
trace grows by exactly the marked records, each once, and their cells are
freed — no double free, no marked record survives) and every unmarked record
is still reachable from the live-list head, in order. -/
theorem garbage_collect_correct (R : ThreadRegistry) (L F : List Nat)
    (h : Reachable R L F) :
    ∃ R1, R.garbage_collect R.owning_thread = some R1 ∧
      R1.free_head = none ∧
      R1.destroyed = R.destroyed ++ F ∧
      F.Nodup ∧
      (∀ i ∈ F, R1.heap i = none) ∧
      R1.for_promise = L.filter (fun i => decide (i ∉ F)) ∧
      (∀ i ∈ L, i ∉ F → ∃ p, R1.heap i = some p) := by
  obtain ⟨d, nL, fc, nF, s, len, dom⟩ := reachable_wf h
  have hFlen : F.length ≤ R.allocs :=
    le_trans (List.Subperm.length_le
      (List.subperm_of_subset nF fun a ha => s a ha)) len
  obtain ⟨gdll, gnd, gdes, gnone, gpres⟩ :=
    gcLoop_spec F R.allocs { R with free_head := none } R.free_head L
      d nL fc nF s hFlen
  refine ⟨R.garbage_collect_run, ?_, garbage_collect_run_free_head R, gdes,
    nF, gnone, ?_, ?_⟩
  · unfold ThreadRegistry.garbage_collect
    rw [if_pos (Or.inr rfl)]
  · have hal : (R.garbage_collect_run).allocs = R.allocs := by
      unfold ThreadRegistry.garbage_collect_run
      exact (gcLoop_frame _ _ _).2.2.2.1
    unfold ThreadRegistry.for_promise
    rw [hal]
    exact dll_walk_eq gdll R.allocs
      (le_trans (List.length_filter_le _ _) len)
  · intro i hiL hiF
    exact dll_mem_some gdll (List.mem_filter.mpr ⟨hiL, by simpa using hiF⟩)

/-- Witness for C4 at a concrete reachable state. -/
theorem garbage_collect_correct_witness :
    ∃ R1, gcW3.garbage_collect gcW3.owning_thread = some R1 ∧
      R1.free_head = none ∧
      R1.destroyed = gcW3.destroyed ++ [10] ∧
      ([10] : List Nat).Nodup ∧
      (∀ i ∈ ([10] : List Nat), R1.heap i = none) ∧
      R1.for_promise = [20, 10].filter (fun i => decide (i ∉ ([10] : List Nat))) ∧
      (∀ i ∈ [20, 10], i ∉ ([10] : List Nat) → ∃ p, R1.heap i = some p) :=
  garbage_collect_correct gcW3 [20, 10] [10] gcW3_reachable

/-- **C6** Under the registry invariant: when `decrement_ref_count` takes the
refcount from one to zero it runs one final `garbage_collect` (destroying all
records still on the free list: the destruction trace grows by exactly the
free chain, and `free_head` ends null) and deallocates the registry (flag
`true`); a decrement that leaves the refcount positive only decrements the
counter — it performs neither the collection nor the deallocation. -/
theorem decrement_ref_count_spec (R : ThreadRegistry) (L F : List Nat)
    (hwf : Wf R L F) :
    (R.ref_count = 1 →
      R.decrement_ref_count =
        (ThreadRegistry.garbage_collect_run { R with ref_count := 0 }, true) ∧
      R.decrement_ref_count.1.free_head = none ∧
      R.decrement_ref_count.1.destroyed = R.destroyed ++ F) ∧
    (2 ≤ R.ref_count →
      R.decrement_ref_count = ({ R with ref_count := R.ref_count - 1 }, false)) := by
  obtain ⟨d, nL, fc, nF, s, len, dom⟩ := hwf
  constructor
  · intro h1
    have heq : R.decrement_ref_count =
        (ThreadRegistry.garbage_collect_run { R with ref_count := 0 }, true) := by
      unfold ThreadRegistry.decrement_ref_count
      rw [if_pos h1, h1]
    have hFlen : F.length ≤ R.allocs :=
      le_trans (List.Subperm.length_le
        (List.subperm_of_subset nF fun a ha => s a ha)) len
    obtain ⟨_, _, gdes, _, _⟩ :=
      gcLoop_spec F R.allocs
        { R with ref_count := 0, free_head := none } R.free_head L
        d nL fc nF s hFlen
    refine ⟨heq, ?_, ?_⟩
    · rw [heq]
      exact garbage_collect_run_free_head _
    · rw [heq]
      exact gdes
  · intro h2
    unfold ThreadRegistry.decrement_ref_count
    rw [if_neg (by omega)]

/-- Witness for C6 at concrete inputs (refcounts one and two, empty
registry). -/
theorem decrement_ref_count_spec_witness :
    (ThreadRegistry.make 1 0).increment_ref_count.decrement_ref_count =
      (ThreadRegistry.garbage_collect_run
        { (ThreadRegistry.make 1 0).increment_ref_count with ref_count := 0 },
       true) ∧
    ((ThreadRegistry.make 1 0).increment_ref_count.increment_ref_count).decrement_ref_count
      = ({ (ThreadRegistry.make 1 0).increment_ref_count.increment_ref_count with
             ref_count := ((ThreadRegistry.make 1 0).increment_ref_count.increment_ref_count).ref_count - 1 },
         false) :=
  ⟨((decrement_ref_count_spec ((ThreadRegistry.make 1 0).increment_ref_count)
      [] [] (reachable_wf (Reachable.incr (Reachable.make 1 0)))).1 rfl).1,
   (decrement_ref_count_spec
      ((ThreadRegistry.make 1 0).increment_ref_count.increment_ref_count)
      [] [] (reachable_wf (Reachable.incr (Reachable.incr (Reachable.make 1 0))))).2
      (by decide)⟩

end AsyncRegistry
